import Mathlib

/-!
# Verification of the panga genetic-algorithm core

A shallow embedding, in Lean 4, of the parts of the `panga` C++ library that
the specification's claims are about:

* `BitVector` (bit-addressable byte buffer): the static bit-range copy
  primitive `WriteBytes`, the integer accessors `GetInt` / `SetInt`,
  `HammingDistance`, `Compare` / `Equals` (`src/BitVector.cc`);
* `Genome` (gene layout table: sized genes plus trailing boolean genes,
  `src/Genome.cc`);
* `Chromosome` (boolean gene accessors and the crossover operators,
  `src/Chromosome.cc`);
* `Population` (evaluation, roulette-wheel selection, diversity,
  `src/Population.cc`).

Machine bytes are modelled as natural numbers below 256; a byte buffer is a
total function `Nat → Nat` from byte index to byte value (C++ pointers may
index any byte, and the copy primitive is used on overlapping regions of
plain memory).  `size_t` values are naturals; the two places in the source
where a `size_t` subtraction can actually wrap (the boolean-gene branch of
`Genome::GetGeneStartBitIndex` and `upper = i - 1` in
`Population::RouletteWheelSelect`) are modelled with explicit `% 2^64`
arithmetic.  `double` values produced and consumed by `Population` are
modelled as rationals.
-/

namespace Panga

/-! The definitions (the embedding of the source) come first, the theorems
about them after.  `double` scores and fitness values are modelled as
rationals (so `x / 0` denotes the model value `0` where IEEE produces
`inf`/`NaN` — either way, not the normalized values the specification
promises). -/

/-- `CHAR_BIT`: bits in one machine byte. -/
def BitsPerByte : Nat := 8

/-- A byte buffer: byte index to byte value. -/
abbrev Mem := Nat → Nat

/-- All bytes of the buffer are machine bytes (below 256). -/
def byteOk (m : Mem) : Prop := ∀ j, m j < 256

/-- The bit of buffer `m` at absolute bit index `p` (little-endian packing
within each byte, as `BitVector::Get` reads it). -/
def bitOf (m : Mem) (p : Nat) : Bool := (m (p / 8)).testBit (p % 8)

/-- `std::byte` left shift: the result is truncated to 8 bits. -/
def byteShl (a k : Nat) : Nat := (a <<< k) % 256

/-- `std::byte` right shift. -/
def byteShr (a k : Nat) : Nat := a >>> k

/-- `MaxByteValue >> (8 - k)`: the low-`k`-bits mask `2^k - 1` (for `k ≤ 8`). -/
def maskLow (k : Nat) : Nat := 255 >>> (8 - k)

/-- `MaxByteValue << k` truncated to a byte: the high-bits mask. -/
def maskHigh (k : Nat) : Nat := byteShl 255 k

/-- `~` on a `std::byte` value below 256. -/
def byteNot (a : Nat) : Nat := 255 ^^^ a

/-- The `while (bits_written < bits_to_copy)` loop of `BitVector::WriteBytes`
(the unaligned slow path).  Each iteration ORs the next chunk of source bits
into the destination byte at `(doff + w) / 8` and advances `w` by the chunk
size `min (8 - sbo) (8 - dbo)` (which is at least 1, so `n` iterations always
suffice: `fuel` only realises termination). -/
def writeBytesLoop (source : Mem) (soff doff n : Nat) : Nat → Nat → Mem → Mem
  | 0, _, dest => dest
  | fuel + 1, w, dest =>
    if w < n then
      let sbo := (soff + w) % 8
      let dbo := (doff + w) % 8
      let v := byteShl (byteShr (source ((soff + w) / 8)) sbo) dbo
      let dest' := Function.update dest ((doff + w) / 8) (dest ((doff + w) / 8) ||| v)
      writeBytesLoop source soff doff n fuel (w + min (8 - sbo) (8 - dbo)) dest'
    else dest

/-- `BitVector::WriteBytes(source, soff, destination, doff, n)`: copy `n` bits
from bit offset `soff` of `source` to bit offset `doff` of `dest`.

* the last destination byte is saved first and its bits at or beyond the end
  offset are restored at the end;
* fast path (both offsets byte aligned): `memcpy` of the touched byte range;
* slow path: save the first destination byte, zero the touched byte range,
  run the copy loop, then OR the saved bits before `doff` back into the first
  byte. -/
def writeBytes (source : Mem) (soff : Nat) (dest : Mem) (doff n : Nat) : Mem :=
  let firstB := doff / 8
  let lastB := (doff + n) / 8
  let lastByteSaved := dest lastB
  let dest1 : Mem :=
    if soff % 8 = 0 ∧ doff % 8 = 0 then
      fun j => if firstB ≤ j ∧ j ≤ lastB then source (soff / 8 + (j - firstB)) else dest j
    else
      let firstByteSaved := dest firstB
      let zeroed : Mem := fun j => if firstB ≤ j ∧ j ≤ lastB then 0 else dest j
      let afterLoop := writeBytesLoop source soff doff n n 0 zeroed
      Function.update afterLoop firstB
        (afterLoop firstB ||| (firstByteSaved &&& maskLow (doff % 8)))
  let mask := maskHigh ((doff + n) % 8)
  Function.update dest1 lastB ((dest1 lastB &&& byteNot mask) ||| (lastByteSaved &&& mask))

/-- Invariant of the slow-path loop of `WriteBytes` after `w` bits have been
written, relative to the original destination `dest` (the state before the
`memset`): copied bits hold source bits, not-yet-copied bits of the zeroed
byte range are zero, bytes outside the touched range are untouched, and all
bytes are machine bytes. -/
def LoopInv (source dest : Mem) (soff doff n w : Nat) (m : Mem) : Prop :=
  (∀ p, doff ≤ p → p < doff + w → bitOf m p = bitOf source (soff + (p - doff))) ∧
  (∀ p, doff / 8 ≤ p / 8 → p / 8 ≤ (doff + n) / 8 → (p < doff ∨ doff + w ≤ p) →
    bitOf m p = false) ∧
  (∀ j, j < doff / 8 ∨ (doff + n) / 8 < j → m j = dest j) ∧
  (∀ j, m j < 256)

/-- A `BitVector`: a bit count plus byte storage.  The byte storage is a
total function (the C++ vector is as large as ever requested; `Resize`
never shrinks it and reads outside the tracked bits see stale bytes). -/
structure BV where
  bit_count : Nat
  bytes : Mem

/-- The little-endian byte image of an integer value, as `WriteInt` passes
`reinterpret_cast<std::byte*>(&value)` to `WriteBytes`. -/
def natBytes (v : Nat) : Mem := fun j => (v >>> (8 * j)) % 256

/-- All-zero memory: the `IntegerType value = 0` local of `ReadInt`. -/
def zeroMem : Mem := fun _ => 0

/-- Reassemble the first `k` bytes of a buffer into an integer
(little-endian), as returning the `value` local of `ReadInt` does. -/
def natFromMem (m : Mem) : Nat → Nat
  | 0 => 0
  | k + 1 => natFromMem m k + m k * 2 ^ (8 * k)

/-- `BitVector::SetInt(value, bit_index, bit_width)`:
`WriteBytes(bytes-of-value, 0, bytes_, bit_index, bit_width)`.
(The asserts `bit_index + bit_width ≤ bit_count_` and `bit_width ≤ 64`
become hypotheses of the theorems.) -/
def SetInt (bv : BV) (value bit_index bit_width : Nat) : BV :=
  { bv with bytes := writeBytes (natBytes value) 0 bv.bytes bit_index bit_width }

/-- `BitVector::GetInt(bit_index, bit_width)` for `IntegerType = uint64_t`:
`WriteBytes(bytes_, bit_index, bytes-of-a-zero-uint64, 0, bit_width)`, then
return the resulting 8-byte integer. -/
def GetInt (bv : BV) (bit_index bit_width : Nat) : Nat :=
  natFromMem (writeBytes bv.bytes bit_index zeroMem 0 bit_width) 8

/-- `size_t` subtraction `a - b`, wrapping modulo `2^64` (for operands below
`2^64` this is exactly the C++ unsigned subtraction). -/
def sub64 (a b : Nat) : Nat := (a % 2 ^ 64 + (2 ^ 64 - b % 2 ^ 64)) % 2 ^ 64

/-- `Genome` state: the `genes_` table of `(start_bit_index_, bit_width_)`
entries, the trailing `boolean_gene_count_`, and
`first_boolean_gene_bit_index_`. -/
structure Genome where
  genes : List (Nat × Nat)
  boolean_gene_count : Nat
  first_boolean_gene_bit_index : Nat

/-- `Genome::GetFirstBooleanGeneIndex`: the count of sized genes. -/
def Genome.GetFirstBooleanGeneIndex (g : Genome) : Nat := g.genes.length

/-- `Genome::GetFirstBooleanGeneBitIndex`. -/
def Genome.GetFirstBooleanGeneBitIndex (g : Genome) : Nat :=
  g.first_boolean_gene_bit_index

/-- `Genome::GetGeneCount`: sized genes plus boolean genes. -/
def Genome.GetGeneCount (g : Genome) : Nat := g.genes.length + g.boolean_gene_count

/-- `Genome::GetGeneStartBitIndex`: stored entry for sized genes; for the
boolean range the source computes
`first_boolean_gene_bit_index_ + genes_.size() - gene_index` in `size_t`
arithmetic (left to right, so the subtraction can wrap). -/
def Genome.GetGeneStartBitIndex (g : Genome) (gene_index : Nat) : Nat :=
  if g.GetFirstBooleanGeneIndex ≤ gene_index then
    sub64 (g.first_boolean_gene_bit_index + g.genes.length) gene_index
  else (g.genes.getD gene_index (0, 0)).1

/-- `Genome::GetGeneBitWitdh` (sic): stored entry for sized genes, 1 for the
boolean range. -/
def Genome.GetGeneBitWitdh (g : Genome) (gene_index : Nat) : Nat :=
  if g.GetFirstBooleanGeneIndex ≤ gene_index then 1
  else (g.genes.getD gene_index (0, 0)).2

/-- `Genome::AddBooleanGenes`. -/
def Genome.AddBooleanGenes (g : Genome) (count : Nat) : Genome :=
  { g with boolean_gene_count := g.boolean_gene_count + count }

/-- `Genome::AddGene(bit_width, byte_align)`: append a sized gene right after
the previous one (optionally rounding start and width up to byte borders) and
move `first_boolean_gene_bit_index_` to its end. -/
def Genome.AddGene (g : Genome) (bit_width : Nat) (byte_align : Bool) : Genome :=
  let bit_start_index : Nat :=
    match g.genes.getLast? with
    | none => 0
    | some gene => gene.1 + gene.2
  let bit_start_index :=
    if byte_align ∧ bit_start_index % 8 ≠ 0 then
      bit_start_index + (8 - bit_start_index % 8)
    else bit_start_index
  let bit_width :=
    if byte_align ∧ bit_width % 8 ≠ 0 then bit_width + (8 - bit_width % 8)
    else bit_width
  { g with
    genes := g.genes ++ [(bit_start_index, bit_width)]
    first_boolean_gene_bit_index := bit_start_index + bit_width }

/-- `Genome::BitsRequired`. -/
def Genome.BitsRequired (g : Genome) : Nat :=
  match g.genes.getLast? with
  | none => g.boolean_gene_count
  | some gene => gene.1 + gene.2 + g.boolean_gene_count

/-- `BitVector::Get(index)`. -/
def Get (c : BV) (index : Nat) : Bool := bitOf c.bytes index

/-- `BitVector::Set(index)`: OR the byte with `byte{1} << bit_offset`. -/
def Set (c : BV) (index : Nat) : BV :=
  let byte_offset := index / 8
  let bit_offset := index % 8
  let mask := 1 <<< bit_offset
  { c with bytes := Function.update c.bytes byte_offset (c.bytes byte_offset ||| mask) }

/-- `BitVector::Unset(index)`: AND the byte with `~(byte{1} << bit_offset)`. -/
def Unset (c : BV) (index : Nat) : BV :=
  let byte_offset := index / 8
  let bit_offset := index % 8
  let mask := 1 <<< bit_offset
  { c with bytes := Function.update c.bytes byte_offset (c.bytes byte_offset &&& byteNot mask) }

/-- `BitVector::Resize(bit_count)`: updates the tracked bit count; the byte
storage only ever grows and existing byte values are preserved (on a total
function model the bytes are unchanged). -/
def Resize (c : BV) (bit_count : Nat) : BV := { c with bit_count := bit_count }

/-- `BitVector::SubVector(destination, destination_start_bit_offset,
source_start_bit_offset, bits_to_copy)`: resize the destination, then copy
through `WriteBytes`. -/
def SubVector (src dest : BV) (destination_start_bit_offset
    source_start_bit_offset bits_to_copy : Nat) : BV :=
  let dest := Resize dest (destination_start_bit_offset + bits_to_copy)
  let new_bytes := writeBytes src.bytes source_start_bit_offset dest.bytes
    destination_start_bit_offset bits_to_copy
  { dest with bytes := new_bytes }

/-- `Chromosome::DecodeBooleanGene(gene_index)`: read the bit at
`(gene_index - GetFirstBooleanGeneIndex()) + GetFirstBooleanGeneBitIndex()`. -/
def DecodeBooleanGene (g : Genome) (c : BV) (gene_index : Nat) : Bool :=
  Get c ((gene_index - g.GetFirstBooleanGeneIndex) + g.GetFirstBooleanGeneBitIndex)

/-- `Chromosome::EncodeBooleanGene(gene_index, value)`: set or unset that
same bit. -/
def EncodeBooleanGene (g : Genome) (c : BV) (gene_index : Nat) (value : Bool) : BV :=
  let bit_index := (gene_index - g.GetFirstBooleanGeneIndex) + g.GetFirstBooleanGeneBitIndex
  if value then Set c bit_index else Unset c bit_index

/-- The failing genome: `AddGene(8, false)` then `AddBooleanGenes(2)`
(one byte-wide sized gene, two boolean genes; 10 bits in total). -/
def exampleGenome : Genome :=
  Genome.AddBooleanGenes (Genome.AddGene ⟨[], 0, 0⟩ 8 false) 2

/-- A chromosome of `exampleGenome` with bit 9 set and all other bits clear. -/
def exampleChromosome : BV := ⟨10, fun j => if j = 1 then 2 else 0⟩

/-- The `ignore_gene_boundaries == false` branch of
`Chromosome::UniformCrossover`: the offspring is resized to the parents' bit
count, then for each gene a coin flip picks the source parent (`true` means
`parent1`); a sized gene is copied with `SubVector` at
`GetGeneStartBitIndex(i)` / `GetGeneBitWitdh(i)`, a boolean gene with a
single-bit `Get` then `Set`/`Unset` at `GetGeneStartBitIndex(i)`. -/
def UniformCrossoverGeneBoundaries (g : Genome) (parent1 parent2 offspring : BV)
    (coins : Nat → Bool) : BV :=
  (List.range g.GetGeneCount).foldl (fun acc i =>
    let chunk_source := if coins i then parent1 else parent2
    let gene_bit_index := g.GetGeneStartBitIndex i
    let gene_bit_width := g.GetGeneBitWitdh i
    if i < g.GetFirstBooleanGeneIndex then
      SubVector chunk_source acc gene_bit_index gene_bit_index gene_bit_width
    else if Get chunk_source gene_bit_index then Set acc gene_bit_index
    else Unset acc gene_bit_index)
    (Resize offspring parent1.bit_count)

/-- Bit-for-bit equality of two buffers on the bit range `[s, s + w)`. -/
def rangeEqB (a b : BV) (s w : Nat) : Bool :=
  (List.range w).all fun t => Get a (s + t) == Get b (s + t)

/-- First parent for the crossover run: all ten bits set. -/
def crossParent1 : BV := ⟨10, fun j => if j = 0 then 255 else if j = 1 then 3 else 0⟩

/-- Second parent for the crossover run: all ten bits clear. -/
def crossParent2 : BV := ⟨10, fun _ => 0⟩

/-- Fresh offspring buffer (all zero, as a `Chromosome` of the genome). -/
def crossOffspring : BV := ⟨10, fun _ => 0⟩

/-- Coin flips of the failing crossover run: genes 0 and 1 from `parent1`,
gene 2 from `parent2`. -/
def crossCoins : Nat → Bool := fun i => decide (i < 2)

/-- `Population::Sort`: `std::sort` on the index array with
`individuals_[left] < individuals_[right]` (`Individual::operator<` compares
raw scores), producing a permutation of `[0, n)` ascending by score
(`std::sort` is unstable, so any ascending permutation is a faithful model;
we use `mergeSort`). -/
def sortedIndices (scores : List ℚ) : List Nat :=
  (List.range scores.length).mergeSort fun a b =>
    decide (scores.getD a 0 ≤ scores.getD b 0)

/-- `best_score` in `Population::Evaluate`: the score of `GetIndividual(0)`,
i.e. of `individuals_[sorted_indices_[0]]`. -/
def bestScore (scores : List ℚ) : ℚ :=
  scores.getD ((sortedIndices scores).getD 0 0) 0

/-- `worst_score` in `Population::Evaluate`: the score of
`GetIndividual(Size() - 1)`. -/
def worstScore (scores : List ℚ) : ℚ :=
  scores.getD ((sortedIndices scores).getD (scores.length - 1) 0) 0

/-- The intermediate fitness values `best_score + worst_score - score`, per
individual in storage order (first loop of `Evaluate`). -/
def preFitness (scores : List ℚ) : List ℚ :=
  scores.map fun s => bestScore scores + worstScore scores - s

/-- `fitness_sum` accumulated by the first loop of `Evaluate`. -/
def fitnessSum (scores : List ℚ) : ℚ := (preFitness scores).sum

/-- The final fitness values after the normalization loop of `Evaluate`. -/
def fitness (scores : List ℚ) : List ℚ :=
  (preFitness scores).map fun f => f / fitnessSum scores

/-- Result of the `RouletteWheelSelect` binary search: the selected sorted
index, an out-of-bounds probe of `partial_sums_[i]`, or fuel exhaustion
(never reached with sufficient fuel). -/
inductive SearchResult where
  | found : Nat → SearchResult
  | oob : Nat → SearchResult
  | spin : SearchResult
deriving DecidableEq

/-- The `while (upper >= lower)` binary search of
`Population::RouletteWheelSelect`, with `lower`/`upper` as `size_t` values:
`upper = i - 1` wraps modulo `2^64` when `i = 0`, and reading
`partial_sums_[i]` beyond the array is reported as `oob`. -/
def rouletteSearch (partial_sums : List ℚ) (cutoff : ℚ) :
    Nat → Nat → Nat → SearchResult
  | 0, _, _ => SearchResult.spin
  | fuel + 1, lower, upper =>
    if lower ≤ upper then
      let i := lower + (upper - lower) / 2
      if hi : i < partial_sums.length then
        if cutoff < partial_sums.get ⟨i, hi⟩ then
          rouletteSearch partial_sums cutoff fuel lower (sub64 i 1)
        else rouletteSearch partial_sums cutoff fuel (i + 1) upper
      else SearchResult.oob i
    else SearchResult.found lower

/-- `Population::RouletteWheelSelect(random)` after the cutoff has been
drawn: binary-search the partial sums, then clamp the landing index with
`min(individuals_.size() - 1, lower)`. -/
def RouletteWheelSelect (partial_sums : List ℚ) (cutoff : ℚ) : SearchResult :=
  match rouletteSearch partial_sums cutoff 128 0 (partial_sums.length - 1) with
  | SearchResult.found lower =>
      SearchResult.found (min (partial_sums.length - 1) lower)
  | r => r

/-- The `bits_set_table` of `CountSetBits`: bit counts of the bytes 0..255. -/
def bits_set_table : List Nat :=
  [0, 1, 1, 2, 1, 2, 2, 3, 1, 2, 2, 3, 2, 3, 3, 4, 1, 2, 2, 3, 2, 3, 3, 4,
   2, 3, 3, 4, 3, 4, 4, 5, 1, 2, 2, 3, 2, 3, 3, 4, 2, 3, 3, 4, 3, 4, 4, 5,
   2, 3, 3, 4, 3, 4, 4, 5, 3, 4, 4, 5, 4, 5, 5, 6, 1, 2, 2, 3, 2, 3, 3, 4,
   2, 3, 3, 4, 3, 4, 4, 5, 2, 3, 3, 4, 3, 4, 4, 5, 3, 4, 4, 5, 4, 5, 5, 6,
   2, 3, 3, 4, 3, 4, 4, 5, 3, 4, 4, 5, 4, 5, 5, 6, 3, 4, 4, 5, 4, 5, 5, 6,
   4, 5, 5, 6, 5, 6, 6, 7, 1, 2, 2, 3, 2, 3, 3, 4, 2, 3, 3, 4, 3, 4, 4, 5,
   2, 3, 3, 4, 3, 4, 4, 5, 3, 4, 4, 5, 4, 5, 5, 6, 2, 3, 3, 4, 3, 4, 4, 5,
   3, 4, 4, 5, 4, 5, 5, 6, 3, 4, 4, 5, 4, 5, 5, 6, 4, 5, 5, 6, 5, 6, 6, 7,
   2, 3, 3, 4, 3, 4, 4, 5, 3, 4, 4, 5, 4, 5, 5, 6, 3, 4, 4, 5, 4, 5, 5, 6,
   4, 5, 5, 6, 5, 6, 6, 7, 3, 4, 4, 5, 4, 5, 5, 6, 4, 5, 5, 6, 5, 6, 6, 7,
   4, 5, 5, 6, 5, 6, 6, 7, 5, 6, 6, 7, 6, 7, 7, 8]

/-- `CountSetBits(val)`: table lookup of the number of set bits in a byte. -/
def CountSetBits (val : Nat) : Nat := bits_set_table.getD val 0

/-- `BitVector::HammingDistance(rhs)`: the sentinel
`std::numeric_limits<size_t>::max()` on mismatched bit counts, otherwise the
popcount of the XOR over all full bytes plus a masked final partial byte. -/
def HammingDistance (a rhs : BV) : Nat :=
  if a.bit_count ≠ rhs.bit_count then 2 ^ 64 - 1
  else
    let last_byte := a.bit_count / 8
    let full := ((List.range last_byte).map fun i =>
      CountSetBits (a.bytes i ^^^ rhs.bytes i)).sum
    let relevant_bits := a.bit_count % 8
    if 0 < relevant_bits then
      full + CountSetBits ((a.bytes last_byte &&& maskLow relevant_bits) ^^^
        (rhs.bytes last_byte &&& maskLow relevant_bits))
    else full

/-- The double loop of `GetPopulationDiversity`: the total Hamming distance
over all unordered pairs (each individual against all later ones). -/
def pairwiseDistance : List BV → Nat
  | [] => 0
  | x :: xs => (xs.map fun y => HammingDistance x y).sum + pairwiseDistance xs

/-- `Population::GetPopulationDiversity()`: 0 for populations of size ≤ 1;
otherwise the total pairwise distance divided by
`total_compares * genome_bits`, where the source computes `total_compares`
as `(n * (n - 1)) >> 2`. -/
def GetPopulationDiversity (g : Genome) (individuals : List BV) : ℚ :=
  if individuals.length ≤ 1 then 0
  else
    let distance := pairwiseDistance individuals
    let genome_bits := g.BitsRequired
    let total_compares := (individuals.length * (individuals.length - 1)) >>> 2
    let total_bits := total_compares * genome_bits
    (distance : ℚ) / (total_bits : ℚ)

/-- An 8-bit genome (one sized gene of width 8, no boolean genes). -/
def byteGenome : Genome := Genome.AddGene ⟨[], 0, 0⟩ 8 false

/-- Independent popcount of a byte: the number of set bits among bits 0..7. -/
def popcount8 (v : Nat) : Nat := ((List.range 8).filter fun k => v.testBit k).length

/-- `BitVector::Compare(left, right, bits_to_compare)`: `memcmp` over the
full bytes, then a masked compare (XOR under `MaxByteValue >> (8 - rem)`)
of the final partial byte. -/
def Compare (left right : Mem) (bits_to_compare : Nat) : Bool :=
  let bytes_to_compare := bits_to_compare / 8
  let bits_remaining := bits_to_compare % 8
  if !((List.range bytes_to_compare).all fun i => left i == right i) then false
  else if bits_remaining == 0 then true
  else
    let mask := maskLow bits_remaining
    ((left bytes_to_compare &&& mask) ^^^ (right bytes_to_compare &&& mask)) == 0

/-- `BitVector::Equals(rhs)` (the one-argument overload): compare the first
`this->bit_count_` bits. -/
def Equals (a rhs : BV) : Bool := Compare a.bytes rhs.bytes a.bit_count

theorem testBit_high {a k : Nat} (ha : a < 256) (hk : 8 ≤ k) : a.testBit k = false := by
  apply Nat.testBit_lt_two_pow
  calc a < 256 := ha
    _ = 2 ^ 8 := by norm_num
    _ ≤ 2 ^ k := Nat.pow_le_pow_right (by norm_num) hk

theorem maskLow_eq {k : Nat} (hk : k ≤ 8) : maskLow k = 2 ^ k - 1 := by
  unfold maskLow
  interval_cases k <;> rfl

theorem testBit_maskLow {k : Nat} (hk : k ≤ 8) (i : Nat) :
    (maskLow k).testBit i = decide (i < k) := by
  rw [maskLow_eq hk, Nat.testBit_two_pow_sub_one]

theorem testBit_maskHigh {e : Nat} (he : e ≤ 8) (i : Nat) :
    (maskHigh e).testBit i = (decide (e ≤ i) && decide (i < 8)) := by
  unfold maskHigh byteShl
  rw [show (256 : Nat) = 2 ^ 8 by norm_num, Nat.testBit_mod_two_pow,
    Nat.testBit_shiftLeft, show (255 : Nat) = 2 ^ 8 - 1 by norm_num,
    Nat.testBit_two_pow_sub_one]
  by_cases h1 : i < 8 <;> by_cases h2 : e ≤ i <;> simp [h1, h2] <;> try omega

theorem testBit_byteNot {a : Nat} (ha : a < 256) (i : Nat) :
    (byteNot a).testBit i = (decide (i < 8) && !(a.testBit i)) := by
  unfold byteNot
  rw [Nat.testBit_xor, show (255 : Nat) = 2 ^ 8 - 1 by norm_num,
    Nat.testBit_two_pow_sub_one]
  by_cases h1 : i < 8
  · simp [h1]
  · have h2 : 8 ≤ i := by omega
    simp [h1, testBit_high ha h2]

/-- The bits of one shifted chunk `(source_byte >> sbo) << dbo` (as a byte):
exactly the `min (8 - sbo) (8 - dbo)` source bits starting at `sbo`, placed
at in-byte positions starting at `dbo`. -/
theorem testBit_chunk {x : Nat} (sbo dbo k : Nat) (hx : x < 256) :
    (byteShl (byteShr x sbo) dbo).testBit k =
      if dbo ≤ k ∧ k < dbo + min (8 - sbo) (8 - dbo) then
        x.testBit (sbo + (k - dbo))
      else false := by
  unfold byteShl byteShr
  rw [show (256 : Nat) = 2 ^ 8 by norm_num, Nat.testBit_mod_two_pow,
    Nat.testBit_shiftLeft, Nat.testBit_shiftRight]
  by_cases h1 : k < 8
  · by_cases h2 : dbo ≤ k
    · by_cases h3 : k < dbo + min (8 - sbo) (8 - dbo)
      · simp [h1, h2, h3, ge_iff_le]
      · have h4 : 8 ≤ sbo + (k - dbo) := by omega
        simp [h1, h2, h3, ge_iff_le, testBit_high hx h4]
    · simp [h1, h2, ge_iff_le]
  · have hc : ¬(dbo ≤ k ∧ k < dbo + min (8 - sbo) (8 - dbo)) := by omega
    simp [h1, hc]

theorem byte_or_lt {a b : Nat} (ha : a < 256) (hb : b < 256) : a ||| b < 256 := by
  have := Nat.or_lt_two_pow (n := 8) (by norm_num at ha ⊢; exact ha)
    (by norm_num at hb ⊢; exact hb)
  norm_num at this
  exact this

theorem byteShl_lt (a k : Nat) : byteShl a k < 256 := by
  unfold byteShl
  exact Nat.mod_lt _ (by norm_num)

theorem bitOf_update_or (m : Mem) (j v p : Nat) :
    bitOf (Function.update m j (m j ||| v)) p =
      (bitOf m p || (decide (p / 8 = j) && v.testBit (p % 8))) := by
  unfold bitOf
  rw [Function.update_apply]
  by_cases h : p / 8 = j
  · simp [h, Nat.testBit_or]
  · simp [h]

theorem loopInv_step (source dest : Mem) (soff doff n w : Nat) (m : Mem)
    (hs : byteOk source) (hw : w < n) (h : LoopInv source dest soff doff n w m) :
    LoopInv source dest soff doff n
      (w + min (8 - (soff + w) % 8) (8 - (doff + w) % 8))
      (Function.update m ((doff + w) / 8)
        (m ((doff + w) / 8) |||
          byteShl (byteShr (source ((soff + w) / 8)) ((soff + w) % 8))
            ((doff + w) % 8))) := by
  obtain ⟨h1, h2, h3, h4⟩ := h
  have hsrc : source ((soff + w) / 8) < 256 := hs _
  have hvbit := fun k => testBit_chunk ((soff + w) % 8) ((doff + w) % 8) k hsrc
  have hds := Nat.div_add_mod (doff + w) 8
  have hss := Nat.div_add_mod (soff + w) 8
  have hsbo : (soff + w) % 8 < 8 := Nat.mod_lt _ (by norm_num)
  have hdbo : (doff + w) % 8 < 8 := Nat.mod_lt _ (by norm_num)
  refine ⟨?_, ?_, ?_, ?_⟩
  · intro p hp1 hp2
    rw [bitOf_update_or]
    have hpm := Nat.div_add_mod p 8
    by_cases hc : p < doff + w
    · -- already-copied bit: the chunk does not overlap it
      rw [h1 p hp1 hc]
      by_cases hj : p / 8 = (doff + w) / 8
      · have : p % 8 < (doff + w) % 8 := by omega
        rw [hvbit]
        simp [hj, this]
      · simp [hj]
    · -- bit written by this iteration
      have hj : p / 8 = (doff + w) / 8 := by omega
      have hzero : bitOf m p = false := by
        apply h2 p (by omega) (by omega)
        omega
      rw [hzero, hvbit]
      have hin : (doff + w) % 8 ≤ p % 8 ∧
          p % 8 < (doff + w) % 8 + min (8 - (soff + w) % 8) (8 - (doff + w) % 8) := by
        omega
      simp only [hj, decide_True, Bool.true_and, Bool.false_or, if_pos hin]
      -- both sides read the same source bit
      have hq : soff + (p - doff) = soff + w + (p - (doff + w)) := by omega
      unfold bitOf
      have hqd : (soff + (p - doff)) / 8 = (soff + w) / 8 := by omega
      have hqm : (soff + (p - doff)) % 8 = (soff + w) % 8 + (p % 8 - (doff + w) % 8) := by
        omega
      rw [hqd, hqm]
  · intro p hpl hpr hpo
    rw [bitOf_update_or, h2 p hpl hpr (by omega)]
    by_cases hj : p / 8 = (doff + w) / 8
    · have hpm := Nat.div_add_mod p 8
      rw [hvbit]
      have : ¬((doff + w) % 8 ≤ p % 8 ∧
          p % 8 < (doff + w) % 8 + min (8 - (soff + w) % 8) (8 - (doff + w) % 8)) := by
        omega
      simp [hj, this]
    · simp [hj]
  · intro j hj
    rw [Function.update_apply]
    have : ¬(j = (doff + w) / 8) := by omega
    rw [if_neg this]
    exact h3 j hj
  · intro j
    rw [Function.update_apply]
    by_cases hj : j = (doff + w) / 8
    · rw [if_pos hj]
      exact byte_or_lt (h4 _) (byteShl_lt _ _)
    · rw [if_neg hj]
      exact h4 j

theorem loopInv_post (source dest : Mem) (soff doff n : Nat) (hs : byteOk source) :
    ∀ fuel w m, n ≤ w + fuel → LoopInv source dest soff doff n w m →
      ∃ w', n ≤ w' ∧
        LoopInv source dest soff doff n w' (writeBytesLoop source soff doff n fuel w m) := by
  intro fuel
  induction fuel with
  | zero =>
    intro w m hfuel hinv
    exact ⟨w, by omega, hinv⟩
  | succ fuel ih =>
    intro w m hfuel hinv
    rw [writeBytesLoop]
    by_cases hw : w < n
    · rw [if_pos hw]
      have hsbo : (soff + w) % 8 < 8 := Nat.mod_lt _ (by norm_num)
      have hdbo : (doff + w) % 8 < 8 := Nat.mod_lt _ (by norm_num)
      exact ih _ _ (by omega) (loopInv_step source dest soff doff n w m hs hw hinv)
    · rw [if_neg hw]
      exact ⟨w, by omega, hinv⟩

theorem testBit_restore (a b : Nat) {e : Nat} (he : e ≤ 8) {k : Nat} (hk : k < 8) :
    ((a &&& byteNot (maskHigh e)) ||| (b &&& maskHigh e)).testBit k =
      if e ≤ k then b.testBit k else a.testBit k := by
  have hm : maskHigh e < 256 := byteShl_lt 255 e
  rw [Nat.testBit_or, Nat.testBit_and, Nat.testBit_and,
    testBit_byteNot hm, testBit_maskHigh he]
  by_cases h : e ≤ k <;> simp [h, hk]

/-- Effect of the final last-byte restore of `WriteBytes`, given that the
intermediate state `dest1` already holds the copied bits, the preserved head
bits, and the untouched outside bytes. -/
theorem restore_spec (source dest dest1 : Mem) (soff doff n : Nat) (m2 : Mem)
    (hm : m2 = Function.update dest1 ((doff + n) / 8)
      ((dest1 ((doff + n) / 8) &&& byteNot (maskHigh ((doff + n) % 8))) |||
        (dest ((doff + n) / 8) &&& maskHigh ((doff + n) % 8))))
    (hd : byteOk dest)
    (D1 : ∀ p, doff ≤ p → p < doff + n → bitOf dest1 p = bitOf source (soff + (p - doff)))
    (D2 : ∀ p, doff / 8 ≤ p / 8 → p / 8 ≤ (doff + n) / 8 → p < doff →
      bitOf dest1 p = bitOf dest p)
    (D3 : ∀ j, j < doff / 8 ∨ (doff + n) / 8 < j → dest1 j = dest j)
    (D4 : byteOk dest1) :
    (∀ i, i < n → bitOf m2 (doff + i) = bitOf source (soff + i)) ∧
    (∀ p, doff / 8 ≤ p / 8 → p / 8 ≤ (doff + n) / 8 → p < doff ∨ doff + n ≤ p →
      bitOf m2 p = bitOf dest p) ∧
    (∀ j, j < doff / 8 ∨ (doff + n) / 8 < j → m2 j = dest j) ∧
    byteOk m2 := by
  subst hm
  have he : (doff + n) % 8 ≤ 8 := by omega
  have hupd : ∀ p, bitOf (Function.update dest1 ((doff + n) / 8)
      ((dest1 ((doff + n) / 8) &&& byteNot (maskHigh ((doff + n) % 8))) |||
        (dest ((doff + n) / 8) &&& maskHigh ((doff + n) % 8)))) p =
      if p / 8 = (doff + n) / 8 then
        (if (doff + n) % 8 ≤ p % 8 then (dest ((doff + n) / 8)).testBit (p % 8)
          else (dest1 ((doff + n) / 8)).testBit (p % 8))
      else bitOf dest1 p := by
    intro p
    unfold bitOf
    rw [Function.update_apply]
    by_cases h : p / 8 = (doff + n) / 8
    · rw [if_pos h, if_pos h, testBit_restore _ _ he (Nat.mod_lt _ (by norm_num))]
    · rw [if_neg h, if_neg h]
  refine ⟨?_, ?_, ?_, ?_⟩
  · intro i hi
    rw [hupd]
    by_cases h : (doff + i) / 8 = (doff + n) / 8
    · have hk : ¬((doff + n) % 8 ≤ (doff + i) % 8) := by omega
      rw [if_pos h, if_neg hk]
      have hD := D1 (doff + i) (by omega) (by omega)
      rw [Nat.add_sub_cancel_left] at hD
      unfold bitOf at hD
      rw [h] at hD
      rw [hD]
      rfl
    · rw [if_neg h]
      have hD := D1 (doff + i) (by omega) (by omega)
      rw [Nat.add_sub_cancel_left] at hD
      rw [hD]
  · intro p hpl hpr hpo
    rw [hupd]
    by_cases h : p / 8 = (doff + n) / 8
    · rw [if_pos h]
      by_cases hk : (doff + n) % 8 ≤ p % 8
      · rw [if_pos hk]
        unfold bitOf
        rw [h]
      · rw [if_neg hk]
        have hlt : p < doff := by omega
        have := D2 p hpl hpr hlt
        unfold bitOf at this
        rw [h] at this
        rw [this]
        unfold bitOf
        rw [h]
    · rw [if_neg h]
      have hlt : p < doff := by omega
      exact D2 p hpl hpr hlt
  · intro j hj
    rw [Function.update_apply, if_neg (by omega : ¬(j = (doff + n) / 8))]
    exact D3 j hj
  · intro j
    rw [Function.update_apply]
    by_cases h : j = (doff + n) / 8
    · rw [if_pos h]
      exact byte_or_lt (Nat.lt_of_le_of_lt (Nat.and_le_left) (D4 _))
        (Nat.lt_of_le_of_lt (Nat.and_le_left) (hd _))
    · rw [if_neg h]
      exact D4 j

/-- Full bit-level specification of `BitVector::WriteBytes`: bits inside the
copied range receive the corresponding source bits; bits of the touched bytes
outside the range keep their old values; bytes outside the touched byte range
are untouched; all bytes stay machine bytes. -/
theorem writeBytes_spec (source dest : Mem) (soff doff n : Nat)
    (hs : byteOk source) (hd : byteOk dest) :
    (∀ i, i < n →
      bitOf (writeBytes source soff dest doff n) (doff + i) = bitOf source (soff + i)) ∧
    (∀ p, doff / 8 ≤ p / 8 → p / 8 ≤ (doff + n) / 8 → p < doff ∨ doff + n ≤ p →
      bitOf (writeBytes source soff dest doff n) p = bitOf dest p) ∧
    (∀ j, j < doff / 8 ∨ (doff + n) / 8 < j →
      writeBytes source soff dest doff n j = dest j) ∧
    byteOk (writeBytes source soff dest doff n) := by
  simp only [writeBytes]
  by_cases hpath : soff % 8 = 0 ∧ doff % 8 = 0
  · rw [if_pos hpath]
    apply restore_spec source dest _ soff doff n _ rfl hd
    · intro p hp1 hp2
      have hbyte : doff / 8 ≤ p / 8 ∧ p / 8 ≤ (doff + n) / 8 := by omega
      simp only [bitOf]
      rw [if_pos hbyte]
      have hq1 : (soff + (p - doff)) / 8 = soff / 8 + (p / 8 - doff / 8) := by omega
      have hq2 : (soff + (p - doff)) % 8 = p % 8 := by omega
      rw [hq1, hq2]
    · intro p hpl hpr hlt
      exact absurd hpl (by omega)
    · intro j hj
      beta_reduce
      rw [if_neg (by omega)]
    · intro j
      beta_reduce
      by_cases h : doff / 8 ≤ j ∧ j ≤ (doff + n) / 8
      · rw [if_pos h]; exact hs _
      · rw [if_neg h]; exact hd _
  · rw [if_neg hpath]
    have hz : LoopInv source dest soff doff n 0
        (fun j => if doff / 8 ≤ j ∧ j ≤ (doff + n) / 8 then 0 else dest j) := by
      refine ⟨?_, ?_, ?_, ?_⟩
      · intro p hp1 hp2
        omega
      · intro p hpl hpr hpo
        unfold bitOf
        beta_reduce
        rw [if_pos ⟨hpl, hpr⟩]
        exact Nat.zero_testBit _
      · intro j hj
        beta_reduce
        rw [if_neg (by omega)]
      · intro j
        beta_reduce
        by_cases h : doff / 8 ≤ j ∧ j ≤ (doff + n) / 8
        · rw [if_pos h]; norm_num
        · rw [if_neg h]; exact hd _
    obtain ⟨w', hw', hinv⟩ := loopInv_post source dest soff doff n hs n 0 _ (by omega) hz
    obtain ⟨L1, L2, L3, L4⟩ := hinv
    set afterLoop := writeBytesLoop source soff doff n n 0
      (fun j => if doff / 8 ≤ j ∧ j ≤ (doff + n) / 8 then 0 else dest j) with hAL
    apply restore_spec source dest _ soff doff n _ rfl hd
    · intro p hp1 hp2
      rw [bitOf_update_or]
      have hmain := L1 p hp1 (by omega)
      rw [hmain]
      by_cases hj : p / 8 = doff / 8
      · have hmask : ¬(p % 8 < doff % 8) := by omega
        rw [Nat.testBit_and, testBit_maskLow (by omega)]
        simp [hj, hmask]
      · simp [hj]
    · intro p hpl hpr hlt
      rw [bitOf_update_or]
      have hj : p / 8 = doff / 8 := by omega
      have hzero := L2 p hpl hpr (Or.inl hlt)
      rw [hzero]
      have hmask : p % 8 < doff % 8 := by omega
      rw [Nat.testBit_and, testBit_maskLow (by omega)]
      have : bitOf dest p = (dest (doff / 8)).testBit (p % 8) := by
        unfold bitOf
        rw [hj]
      simp [hj, hmask, this]
    · intro j hj
      rw [Function.update_apply, if_neg (by omega : ¬(j = doff / 8))]
      exact L3 j hj
    · intro j
      rw [Function.update_apply]
      by_cases h : j = doff / 8
      · rw [if_pos h]
        exact byte_or_lt (L4 _) (Nat.lt_of_le_of_lt (Nat.and_le_left) (hd _))
      · rw [if_neg h]
        exact L4 j

theorem natBytes_ok (v : Nat) : byteOk (natBytes v) := by
  intro j
  exact Nat.mod_lt _ (by norm_num)

theorem bitOf_natBytes (v p : Nat) : bitOf (natBytes v) p = v.testBit p := by
  unfold bitOf natBytes
  rw [show (256 : Nat) = 2 ^ 8 by norm_num, Nat.testBit_mod_two_pow,
    Nat.testBit_shiftRight]
  have h : p % 8 < 8 := Nat.mod_lt _ (by norm_num)
  simp only [h, decide_True, Bool.true_and]
  congr 1
  omega

theorem natFromMem_congr (m m2 : Mem) (k : Nat) (h : ∀ j, j < k → m j = m2 j) :
    natFromMem m k = natFromMem m2 k := by
  induction k with
  | zero => rfl
  | succ k ih =>
    unfold natFromMem
    rw [ih (fun j hj => h j (by omega)), h k (by omega)]

theorem natFromMem_natBytes (v k : Nat) : natFromMem (natBytes v) k = v % 2 ^ (8 * k) := by
  induction k with
  | zero => simp [natFromMem, Nat.mod_one]
  | succ k ih =>
    simp only [natFromMem]
    rw [ih]
    unfold natBytes
    rw [Nat.shiftRight_eq_div_pow]
    rw [show 8 * (k + 1) = 8 * k + 8 by ring, pow_add,
      Nat.mod_mul, show (256 : Nat) = 2 ^ 8 by norm_num]
    ring

/-- C1.  Round-trip of the integer accessors: on a `BitVector` with
`bit_index + bit_width ≤ bit_count` (the precondition asserted by
`GetInt`/`SetInt`), writing `value < 2^bit_width` with
`SetInt(value, bit_index, bit_width)` (`1 ≤ bit_width ≤ 64`) and reading
back with `GetInt(bit_index, bit_width)` returns `value`. -/
theorem setInt_getInt_roundtrip (bv : BV) (value bitIndex width : Nat)
    (hwl : 1 ≤ width) (hwu : width ≤ 64) (hv : value < 2 ^ width)
    (hfit : bitIndex + width ≤ bv.bit_count) (hok : byteOk bv.bytes) :
    GetInt (SetInt bv value bitIndex width) bitIndex width = value := by
  unfold GetInt SetInt
  obtain ⟨W1, W2, W3, W4⟩ :=
    writeBytes_spec (natBytes value) bv.bytes 0 bitIndex width (natBytes_ok value) hok
  obtain ⟨R1, R2, R3, R4⟩ :=
    writeBytes_spec (writeBytes (natBytes value) 0 bv.bytes bitIndex width)
      zeroMem bitIndex 0 width W4 (fun _ => by norm_num [zeroMem])
  have hbits : ∀ p, bitOf (writeBytes (writeBytes (natBytes value) 0 bv.bytes
      bitIndex width) bitIndex zeroMem 0 width) p = value.testBit p := by
    intro p
    by_cases hp : p < width
    · have := R1 p hp
      rw [Nat.zero_add] at this
      rw [this]
      have := W1 p hp
      rw [Nat.zero_add] at this
      rw [this, bitOf_natBytes]
    · by_cases hp8 : p / 8 ≤ (0 + width) / 8
      · have := R2 p (by omega) hp8 (by omega)
        rw [this]
        have hz : (value.testBit p) = false :=
          Nat.testBit_lt_two_pow (lt_of_lt_of_le hv (Nat.pow_le_pow_right (by norm_num) (by omega)))
        rw [hz]
        exact Nat.zero_testBit _
      · have := R3 (p / 8) (by omega)
        unfold bitOf
        rw [this]
        have hz : (value.testBit p) = false :=
          Nat.testBit_lt_two_pow (lt_of_lt_of_le hv (Nat.pow_le_pow_right (by norm_num) (by omega)))
        rw [hz]
        exact Nat.zero_testBit _
  have hbyteeq : ∀ j, j < 8 → writeBytes (writeBytes (natBytes value) 0 bv.bytes
      bitIndex width) bitIndex zeroMem 0 width j = natBytes value j := by
    intro j hj
    apply Nat.eq_of_testBit_eq
    intro i
    by_cases hi : i < 8
    · have h1 := hbits (8 * j + i)
      unfold bitOf at h1
      have hd : (8 * j + i) / 8 = j := by omega
      have hm : (8 * j + i) % 8 = i := by omega
      rw [hd, hm] at h1
      rw [h1]
      have h2 := bitOf_natBytes value (8 * j + i)
      unfold bitOf at h2
      rw [hd, hm] at h2
      rw [h2]
    · rw [testBit_high (R4 j) (by omega), testBit_high (natBytes_ok value j) (by omega)]
  rw [natFromMem_congr _ _ 8 hbyteeq, natFromMem_natBytes]
  exact Nat.mod_eq_of_lt (lt_of_lt_of_le hv (Nat.pow_le_pow_right (by norm_num) (by omega)))

/-- Witness for C1 at a concrete input: a 20-bit buffer, value `0xff` at
bit index 9 with width 11. -/
theorem setInt_getInt_roundtrip_witness :
    GetInt (SetInt ⟨20, fun _ => 173⟩ 255 9 11) 9 11 = 255 :=
  setInt_getInt_roundtrip ⟨20, fun _ => 173⟩ 255 9 11 (by norm_num) (by norm_num)
    (by norm_num) (by norm_num) (fun _ => by norm_num)

/-- C2.  Frame property of the bit-range copy primitive `WriteBytes`: every
destination bit outside `[dest_bit_off, dest_bit_off + width)` that lies in a
byte touched by the copy keeps its value, on the aligned fast path and the
unaligned slow path alike (the statement covers both paths of `writeBytes`). -/
theorem writeBytes_frame (source dest : Mem) (soff doff width p : Nat)
    (hs : byteOk source) (hd : byteOk dest)
    (hbl : doff / 8 ≤ p / 8) (hbr : p / 8 ≤ (doff + width) / 8)
    (hout : p < doff ∨ doff + width ≤ p) :
    bitOf (writeBytes source soff dest doff width) p = bitOf dest p :=
  (writeBytes_spec source dest soff doff width hs hd).2.1 p hbl hbr hout

/-- Witness for C2: an unaligned copy (soff 3, doff 5, width 7) preserves
destination bit 4, which is below the destination offset but inside the
first touched byte. -/
theorem writeBytes_frame_witness :
    bitOf (writeBytes (fun _ => 170) 3 (fun _ => 201) 5 7) 4 =
      bitOf (fun _ => 201) 4 :=
  writeBytes_frame (fun _ => 170) (fun _ => 201) 3 5 7 4
    (fun _ => by norm_num) (fun _ => by norm_num) (by decide) (by decide) (by decide)

/-- C5.  The dispatch of `GetGeneStartBitIndex` / `GetGeneBitWitdh`: a gene
index in the boolean range gets start offset
`first_boolean_gene_bit_index + sized_count - i` (a `size_t` difference; the
natural-number reading whenever `i ≤ first_boolean_gene_bit_index +
sized_count`) and width 1, while a sized gene index gets the stored entry. -/
theorem geneStartBitIndex_dispatch (g : Genome) (i : Nat)
    (hfit : g.first_boolean_gene_bit_index + g.genes.length < 2 ^ 64) :
    (g.genes.length ≤ i → i < g.GetGeneCount →
      g.GetGeneStartBitIndex i =
          sub64 (g.first_boolean_gene_bit_index + g.genes.length) i ∧
        g.GetGeneBitWitdh i = 1) ∧
    (g.genes.length ≤ i → i ≤ g.first_boolean_gene_bit_index + g.genes.length →
      g.GetGeneStartBitIndex i =
        g.first_boolean_gene_bit_index + g.genes.length - i) ∧
    (∀ h : i < g.genes.length,
      g.GetGeneStartBitIndex i = (g.genes.get ⟨i, h⟩).1 ∧
        g.GetGeneBitWitdh i = (g.genes.get ⟨i, h⟩).2) := by
  refine ⟨?_, ?_, ?_⟩
  · intro h1 _
    unfold Genome.GetGeneStartBitIndex Genome.GetGeneBitWitdh
      Genome.GetFirstBooleanGeneIndex
    rw [if_pos h1, if_pos h1]
    exact ⟨rfl, rfl⟩
  · intro h1 h2
    unfold Genome.GetGeneStartBitIndex Genome.GetFirstBooleanGeneIndex
    rw [if_pos h1]
    unfold sub64
    omega
  · intro h
    unfold Genome.GetGeneStartBitIndex Genome.GetGeneBitWitdh
      Genome.GetFirstBooleanGeneIndex
    rw [if_neg (by omega), if_neg (by omega), List.getD_eq_getElem?_getD,
      List.getElem?_eq_getElem h]
    exact ⟨rfl, rfl⟩

/-- Witness for C5: a genome with sized genes `(0,8),(8,4)` and three boolean
genes; boolean gene 3 starts at `12 + 2 - 3 = 11`, sized gene 1 at 8. -/
theorem geneStartBitIndex_dispatch_witness :
    (Genome.GetGeneStartBitIndex ⟨[(0, 8), (8, 4)], 3, 12⟩ 3 = 11 ∧
      Genome.GetGeneBitWitdh ⟨[(0, 8), (8, 4)], 3, 12⟩ 3 = 1) ∧
    Genome.GetGeneStartBitIndex ⟨[(0, 8), (8, 4)], 3, 12⟩ 1 = 8 := by
  have h := geneStartBitIndex_dispatch ⟨[(0, 8), (8, 4)], 3, 12⟩ 3 (by norm_num)
  have h2 := geneStartBitIndex_dispatch ⟨[(0, 8), (8, 4)], 3, 12⟩ 1 (by norm_num)
  refine ⟨⟨?_, (h.1 (by norm_num) (by decide)).2⟩, ?_⟩
  · rw [h.2.1 (by norm_num) (by norm_num)]
    decide
  · exact (h2.2.2 (by norm_num)).1

theorem bitOf_Set (c : BV) (b p : Nat) :
    bitOf (Set c b).bytes p = if p = b then true else bitOf c.bytes p := by
  simp only [Set, bitOf]
  rw [Function.update_apply]
  by_cases hj : p / 8 = b / 8
  · rw [if_pos hj, Nat.testBit_or, Nat.one_shiftLeft, Nat.testBit_two_pow]
    by_cases hp : p = b
    · have : b % 8 = p % 8 := by omega
      simp [hp, this]
    · have : ¬(b % 8 = p % 8) := by omega
      simp [hp, hj, this]
  · have : ¬(p = b) := by omega
    rw [if_neg hj, if_neg this]

theorem bitOf_Unset (c : BV) (b p : Nat) :
    bitOf (Unset c b).bytes p = if p = b then false else bitOf c.bytes p := by
  simp only [Unset, bitOf]
  rw [Function.update_apply]
  have hm : (1 : Nat) <<< (b % 8) < 256 := by
    rw [Nat.one_shiftLeft]
    have hb : b % 8 < 8 := Nat.mod_lt _ (by norm_num)
    calc 2 ^ (b % 8) ≤ 2 ^ 7 := Nat.pow_le_pow_right (by norm_num) (by omega)
      _ < 256 := by norm_num
  by_cases hj : p / 8 = b / 8
  · rw [if_pos hj, Nat.testBit_and, testBit_byteNot hm,
      Nat.one_shiftLeft, Nat.testBit_two_pow]
    by_cases hp : p = b
    · have : b % 8 = p % 8 := by omega
      simp [hp, this]
    · have h1 : ¬(b % 8 = p % 8) := by omega
      have h2 : p % 8 < 8 := by omega
      simp [hp, hj, h1, h2]
  · have : ¬(p = b) := by omega
    rw [if_neg hj, if_neg this]

/-- C6 (amended).  The boolean-gene accessors read and write exactly the bit
at `first_boolean_gene_bit_index + (i - sized_count)` — the boolean genes sit
on consecutive ascending bits starting at `first_boolean_gene_bit_index`:
an encoded value is decoded back, every other bit is untouched, and decoding
reads exactly that bit.  (For `i > sized_count` this bit differs from the
start offset `GetGeneStartBitIndex(i)` reports, see the counterexample.) -/
theorem booleanGene_bit_access (g : Genome) (c : BV) (i : Nat) (v : Bool)
    (h1 : g.genes.length ≤ i) (h2 : i < g.GetGeneCount) :
    DecodeBooleanGene g (EncodeBooleanGene g c i v) i = v ∧
    (∀ p, p ≠ g.first_boolean_gene_bit_index + (i - g.genes.length) →
      bitOf (EncodeBooleanGene g c i v).bytes p = bitOf c.bytes p) ∧
    DecodeBooleanGene g c i =
      bitOf c.bytes (g.first_boolean_gene_bit_index + (i - g.genes.length)) := by
  have hbit : (i - g.GetFirstBooleanGeneIndex) + g.GetFirstBooleanGeneBitIndex =
      g.first_boolean_gene_bit_index + (i - g.genes.length) := by
    unfold Genome.GetFirstBooleanGeneIndex Genome.GetFirstBooleanGeneBitIndex
    omega
  refine ⟨?_, ?_, ?_⟩
  · unfold DecodeBooleanGene EncodeBooleanGene Get
    cases v
    · rw [if_neg (by simp), bitOf_Unset, if_pos rfl]
    · rw [if_pos rfl, bitOf_Set, if_pos rfl]
  · intro p hp
    unfold EncodeBooleanGene
    rw [hbit] at *
    cases v
    · rw [if_neg (by simp), bitOf_Unset, if_neg hp]
    · rw [if_pos rfl, bitOf_Set, if_neg hp]
  · unfold DecodeBooleanGene Get
    rw [hbit]

/-- C6, counterexample.  For the second boolean gene (index 2) of
`exampleGenome`, `DecodeBooleanGene` reads bit 9 while the layout reports
start offset `GetGeneStartBitIndex(2) = 8 + 1 - 2 = 7`: on a chromosome
whose bit 9 is set and whose bit 7 is clear the decoded value is `true`
although the bit at the reported offset is `false`.  So `DecodeBooleanGene(i)`
does not read the bit at `GetGeneStartBitIndex(i)`. -/
theorem decodeBooleanGene_offset_mismatch :
    DecodeBooleanGene exampleGenome exampleChromosome 2 = true ∧
    Genome.GetGeneStartBitIndex exampleGenome 2 = 7 ∧
    Get exampleChromosome (Genome.GetGeneStartBitIndex exampleGenome 2) = false := by
  refine ⟨by decide, ?_, ?_⟩
  · show sub64 9 2 = 7
    decide
  · show Get exampleChromosome (sub64 9 2) = false
    rw [show sub64 9 2 = 7 from by decide]
    decide

/-- Witness for C6 (amended) at gene index 2 of `exampleGenome`: encoding
`true` is decoded back, and bit 7 (the offset the layout reports for this
gene) is untouched by the write. -/
theorem booleanGene_bit_access_witness :
    DecodeBooleanGene exampleGenome
        (EncodeBooleanGene exampleGenome exampleChromosome 2 true) 2 = true ∧
    bitOf (EncodeBooleanGene exampleGenome exampleChromosome 2 true).bytes 7 =
      bitOf exampleChromosome.bytes 7 := by
  have h := booleanGene_bit_access exampleGenome exampleChromosome 2 true
    (by decide) (by decide)
  exact ⟨h.1, h.2.1 7 (by decide)⟩

/-- C3, failing run.  On `exampleGenome` (one sized gene over bits `[0,8)`,
two boolean genes) with parents all-ones/all-zeros and coin flips
(parent1, parent1, parent2), the offspring's sized gene 0 equals neither
parent on its full bit range `[0,8)`: the boolean gene 2 write lands at bit
`GetGeneStartBitIndex(2) = 7` inside gene 0's range and overwrites it with a
`parent2` bit, so the gene mixes bits of both parents. -/
theorem uniformCrossover_mixes_sized_gene :
    rangeEqB (UniformCrossoverGeneBoundaries exampleGenome crossParent1
        crossParent2 crossOffspring crossCoins) crossParent1 0 8 = false ∧
    rangeEqB (UniformCrossoverGeneBoundaries exampleGenome crossParent1
        crossParent2 crossOffspring crossCoins) crossParent2 0 8 = false := by
  decide

theorem sortedIndices_length (scores : List ℚ) :
    (sortedIndices scores).length = scores.length := by
  unfold sortedIndices
  rw [(List.mergeSort_perm _ _).length_eq, List.length_range]

theorem sortedIndices_pairwise (scores : List ℚ) :
    List.Pairwise (fun a b => scores.getD a 0 ≤ scores.getD b 0)
      (sortedIndices scores) := by
  have h := @List.sorted_mergeSort Nat
    (fun a b => decide (scores.getD a 0 ≤ scores.getD b 0))
    (fun a b c hab hbc => by
      simp only [decide_eq_true_eq] at *
      exact le_trans hab hbc)
    (fun a b => by
      simp only [Bool.or_eq_true, decide_eq_true_eq]
      exact le_total _ _)
    (List.range scores.length)
  exact h.imp (by simp only [decide_eq_true_eq]; exact fun h => h)

theorem listGetD_get {α : Type} (l : List α) (d : α) (i : Nat) (h : i < l.length) :
    l.getD i d = l.get ⟨i, h⟩ := by
  rw [List.getD_eq_getElem?_getD, List.getElem?_eq_getElem h]
  rfl

theorem sortedIndices_mono (scores : List ℚ) (a b : Nat) (hab : a ≤ b)
    (hb : b < scores.length) :
    scores.getD ((sortedIndices scores).getD a 0) 0 ≤
      scores.getD ((sortedIndices scores).getD b 0) 0 := by
  have hlen := sortedIndices_length scores
  have ha2 : a < (sortedIndices scores).length := by omega
  have hb2 : b < (sortedIndices scores).length := by omega
  rw [listGetD_get _ 0 a ha2, listGetD_get _ 0 b hb2]
  rcases Nat.lt_or_ge a b with hlt | hge
  · exact (List.pairwise_iff_get.mp (sortedIndices_pairwise scores))
      ⟨a, ha2⟩ ⟨b, hb2⟩ hlt
  · have hab2 : a = b := by omega
    subst hab2
    simp

theorem sortedIndices_getD_lt (scores : List ℚ) (k : Nat) (hk : k < scores.length) :
    (sortedIndices scores).getD k 0 < scores.length := by
  have hlen := sortedIndices_length scores
  have hk2 : k < (sortedIndices scores).length := by omega
  rw [listGetD_get _ 0 k hk2]
  have hmem : (sortedIndices scores).get ⟨k, hk2⟩ ∈ sortedIndices scores :=
    List.get_mem _ _ _
  have hperm : (sortedIndices scores).Perm (List.range scores.length) :=
    List.mergeSort_perm _ _
  rw [hperm.mem_iff, List.mem_range] at hmem
  exact hmem

/-- C4 (amended).  After `Population::Evaluate` on a non-empty score list:
provided the intermediate fitness sum is nonzero, the normalized fitness
values sum to exactly 1; each intermediate fitness value is
`best_score + worst_score - score[i]`; the sort permutation is a permutation
of `[0, n)` ordering scores ascending, and the individual at sorted position
0 has the minimum score.  (Without the nonzero-sum hypothesis the claim
fails, see the counterexample.) -/
theorem evaluate_invariant (scores : List ℚ) (hne : scores ≠ [])
    (hS : fitnessSum scores ≠ 0) :
    (fitness scores).sum = 1 ∧
    (∀ i, i < scores.length →
      (preFitness scores).getD i 0 =
        bestScore scores + worstScore scores - scores.getD i 0) ∧
    (sortedIndices scores).Perm (List.range scores.length) ∧
    (∀ a b, a ≤ b → b < scores.length →
      scores.getD ((sortedIndices scores).getD a 0) 0 ≤
        scores.getD ((sortedIndices scores).getD b 0) 0) ∧
    (∀ j, j < scores.length → bestScore scores ≤ scores.getD j 0) := by
  refine ⟨?_, ?_, List.mergeSort_perm _ _, sortedIndices_mono scores, ?_⟩
  · unfold fitness
    have h := List.sum_map_mul_right (preFitness scores) id (fitnessSum scores)⁻¹
    simp only [id] at h
    simp only [div_eq_mul_inv, h]
    rw [List.map_id]
    exact mul_inv_cancel₀ hS
  · intro i hi
    unfold preFitness
    rw [List.getD_eq_getElem?_getD, List.getElem?_eq_getElem (by simpa using hi),
      List.getElem_map, List.getD_eq_getElem?_getD, List.getElem?_eq_getElem hi]
    rfl
  · intro j hj
    have hperm : (sortedIndices scores).Perm (List.range scores.length) :=
      List.mergeSort_perm _ _
    have hmem : j ∈ sortedIndices scores := by
      rw [hperm.mem_iff, List.mem_range]
      exact hj
    obtain ⟨⟨k, hk⟩, hget⟩ := List.mem_iff_get.mp hmem
    have hlen := sortedIndices_length scores
    have hmono := sortedIndices_mono scores 0 k (Nat.zero_le k) (by omega)
    rw [listGetD_get _ 0 k hk] at hmono
    rw [hget] at hmono
    unfold bestScore
    exact hmono

/-- C4, counterexample to the claim as stated.  For the fitness function
scoring the single individual `0`, `best_score = worst_score = 0`, the
intermediate fitness is `0` and `fitness_sum = 0`: the normalization
divides by zero (IEEE: `0/0 = NaN`; in the rational model `0 / 0 = 0`),
and the fitness sum after `Evaluate` is 0, not 1. -/
theorem evaluate_sum_counterexample :
    fitnessSum [(0 : ℚ)] = 0 ∧ (fitness [(0 : ℚ)]).sum ≠ 1 := by
  have hgd : ∀ x, [(0 : ℚ)].getD x 0 = 0 := by
    intro x
    cases x
    · rfl
    · rfl
  have hb : bestScore [(0 : ℚ)] = 0 := hgd _
  have hw : worstScore [(0 : ℚ)] = 0 := hgd _
  have hpre : preFitness [(0 : ℚ)] = [0] := by
    unfold preFitness
    rw [List.map_cons, List.map_nil, hb, hw]
    norm_num
  have hS : fitnessSum [(0 : ℚ)] = 0 := by
    unfold fitnessSum
    rw [hpre]
    simp
  refine ⟨hS, ?_⟩
  unfold fitness
  rw [hpre, hS]
  norm_num

/-- Witness for C4 (amended) on scores `[5, 5, 5]` (fitness sum `15 ≠ 0`):
the normalized fitness sums to 1 and sorted position 0 carries the minimum
score. -/
theorem evaluate_invariant_witness :
    (fitness [(5 : ℚ), 5, 5]).sum = 1 ∧
    bestScore [(5 : ℚ), 5, 5] ≤ [(5 : ℚ), 5, 5].getD 0 0 := by
  have hgd : ∀ x, x < 3 → [(5 : ℚ), 5, 5].getD x 0 = 5 := by
    intro x hx
    interval_cases x <;> rfl
  have hb : bestScore [(5 : ℚ), 5, 5] = 5 :=
    hgd _ (sortedIndices_getD_lt [(5 : ℚ), 5, 5] 0 (by norm_num))
  have hw : worstScore [(5 : ℚ), 5, 5] = 5 :=
    hgd _ (sortedIndices_getD_lt [(5 : ℚ), 5, 5] 2 (by norm_num))
  have hS : fitnessSum [(5 : ℚ), 5, 5] = 15 := by
    unfold fitnessSum preFitness
    rw [hb, hw]
    norm_num
  have h := evaluate_invariant [(5 : ℚ), 5, 5] (by simp)
    (by rw [hS]; norm_num)
  exact ⟨h.1, h.2.2.2.2 0 (by norm_num)⟩

/-- C7, failing run.  On a single-individual population
(`partial_sums = [1.0]`) with cutoff `0.5`, the probe at `i = 0` finds
`partial_sums_[0] > cutoff`, `upper = 0 - 1` wraps to `2^64 - 1`, the loop
continues, and the next probe reads `partial_sums_[(2^64 - 1) / 2]` — an
index far outside `[0, population size)`.  The binary search does probe an
out-of-bounds index, contrary to the claim. -/
theorem rouletteWheelSelect_oob_probe :
    RouletteWheelSelect [1] (1 / 2) = SearchResult.oob 9223372036854775807 := by
  have step1 : rouletteSearch [1] (1 / 2) 128 0 0 =
      rouletteSearch [1] (1 / 2) 127 0 18446744073709551615 := by
    show rouletteSearch [1] (1 / 2) (127 + 1) 0 0 = _
    rw [rouletteSearch]
    rw [if_pos (by norm_num)]
    have hi : (0 : Nat) + (0 - 0) / 2 < [(1 : ℚ)].length := by norm_num
    rw [dif_pos hi]
    rw [if_pos (by norm_num)]
    have hs : sub64 (0 + (0 - 0) / 2) 1 = 18446744073709551615 := by
      norm_num [sub64]
    rw [hs]
  have step2 : rouletteSearch [1] (1 / 2) 127 0 18446744073709551615 =
      SearchResult.oob 9223372036854775807 := by
    show rouletteSearch [1] (1 / 2) (126 + 1) 0 18446744073709551615 = _
    rw [rouletteSearch]
    rw [if_pos (by norm_num)]
    have hi : ¬((0 : Nat) + (18446744073709551615 - 0) / 2 < [(1 : ℚ)].length) := by
      norm_num
    rw [dif_neg hi]
  show (match rouletteSearch [1] (1 / 2) 128 0 ([(1 : ℚ)].length - 1) with
    | SearchResult.found lower => SearchResult.found (min ([(1 : ℚ)].length - 1) lower)
    | r => r) = SearchResult.oob 9223372036854775807
  have hlen : [(1 : ℚ)].length - 1 = 0 := by norm_num
  rw [hlen, step1, step2]

/-- C8, failing run.  For three 8-bit individuals `0x00`, `0xff`, `0x0f` the
pairwise distances are 8, 4, 4 (total 16) over 3 unordered pairs, so the
claimed mean normalized by `genome_bits * pairs` is `16 / (8 * 3) = 2/3`;
the code computes `total_compares = (3 * 2) >> 2 = 1` and returns
`16 / 8 = 2`.  (With 2 individuals, `(2 * 1) >> 2 = 0` and the code divides
by zero outright.) -/
theorem populationDiversity_quarter_pairs :
    GetPopulationDiversity byteGenome
        [⟨8, fun _ => 0⟩, ⟨8, fun _ => 255⟩, ⟨8, fun _ => 15⟩] = 2 ∧
    ((16 : ℚ) / (8 * 3) = 2 / 3 ∧ (2 : ℚ) ≠ 2 / 3) := by
  have hdist : pairwiseDistance [⟨8, fun _ => 0⟩, ⟨8, fun _ => 255⟩,
      ⟨8, fun _ => 15⟩] = 16 := by decide
  have hbits : byteGenome.BitsRequired = 8 := by decide
  refine ⟨?_, by norm_num⟩
  show (((pairwiseDistance [⟨8, fun _ => 0⟩, ⟨8, fun _ => 255⟩, ⟨8, fun _ => 15⟩] :
      Nat) : ℚ) / ((((3 * (3 - 1)) >>> 2) * byteGenome.BitsRequired : Nat) : ℚ)) = 2
  rw [hdist, hbits]
  norm_num [Nat.shiftRight_eq_div_pow]

set_option maxRecDepth 4096 in
theorem countSetBits_popcount : ∀ v, v < 256 → CountSetBits v = popcount8 v := by
  decide

/-- C9.  `HammingDistance(a, a) = 0` for every `a`; mismatched bit counts
return the sentinel `std::numeric_limits<size_t>::max()` instead of failing;
equal bit counts give the popcount of the XOR over all full bytes plus a
masked final partial byte. -/
theorem hammingDistance_spec :
    (∀ a : BV, HammingDistance a a = 0) ∧
    (∀ a b : BV, a.bit_count ≠ b.bit_count → HammingDistance a b = 2 ^ 64 - 1) ∧
    (∀ a b : BV, byteOk a.bytes → byteOk b.bytes → a.bit_count = b.bit_count →
      HammingDistance a b =
        ((List.range (a.bit_count / 8)).map fun i =>
          popcount8 (a.bytes i ^^^ b.bytes i)).sum +
        (if 0 < a.bit_count % 8 then
          popcount8 ((a.bytes (a.bit_count / 8) &&& maskLow (a.bit_count % 8)) ^^^
            (b.bytes (a.bit_count / 8) &&& maskLow (a.bit_count % 8)))
        else 0)) := by
  have h256 : (256 : Nat) = 2 ^ 8 := by norm_num
  refine ⟨?_, ?_, ?_⟩
  · intro a
    simp only [HammingDistance]
    rw [if_neg (by simp)]
    have h0 : CountSetBits 0 = 0 := rfl
    simp [Nat.xor_self, h0]
  · intro a b hne
    simp only [HammingDistance]
    rw [if_pos hne]
  · intro a b ha hb heq
    simp only [HammingDistance]
    rw [if_neg (by simp [heq])]
    have hmap : (List.range (a.bit_count / 8)).map
        (fun i => CountSetBits (a.bytes i ^^^ b.bytes i)) =
        (List.range (a.bit_count / 8)).map
        (fun i => popcount8 (a.bytes i ^^^ b.bytes i)) := by
      apply List.map_congr_left
      intro i _
      exact countSetBits_popcount _ (Nat.xor_lt_two_pow (n := 8)
        (by rw [← h256]; exact ha i) (by rw [← h256]; exact hb i))
    rw [hmap]
    by_cases hrel : 0 < a.bit_count % 8
    · rw [if_pos hrel, if_pos hrel]
      congr 1
      exact countSetBits_popcount _ (Nat.xor_lt_two_pow (n := 8)
        (Nat.lt_of_le_of_lt Nat.and_le_left (by rw [← h256]; exact ha _))
        (Nat.lt_of_le_of_lt Nat.and_le_left (by rw [← h256]; exact hb _)))
    · rw [if_neg hrel, if_neg hrel, Nat.add_zero]

/-- Witness for C9: mismatched bit counts (3 vs 5) give the sentinel, and two
12-bit buffers `0xfff` vs `0x000` are at distance 12 by the byte formula. -/
theorem hammingDistance_spec_witness :
    HammingDistance ⟨3, fun _ => 0⟩ ⟨5, fun _ => 0⟩ = 2 ^ 64 - 1 ∧
    HammingDistance ⟨12, fun _ => 255⟩ ⟨12, fun _ => 0⟩ = 12 := by
  constructor
  · exact hammingDistance_spec.2.1 ⟨3, fun _ => 0⟩ ⟨5, fun _ => 0⟩ (by norm_num)
  · have h := hammingDistance_spec.2.2 ⟨12, fun _ => 255⟩ ⟨12, fun _ => 0⟩
      (fun _ => by norm_num) (fun _ => by norm_num) rfl
    rw [h]
    decide

theorem compare_flat (left right : Mem) (n : Nat) :
    Compare left right n =
      (((List.range (n / 8)).all fun i => left i == right i) &&
        (n % 8 == 0 ||
          ((left (n / 8) &&& maskLow (n % 8)) ^^^
            (right (n / 8) &&& maskLow (n % 8))) == 0)) := by
  simp only [Compare]
  by_cases h1 : (List.range (n / 8)).all fun i => left i == right i
  · rw [h1]
    by_cases h2 : n % 8 = 0 <;> simp [h2]
  · have h1f : ((List.range (n / 8)).all fun i => left i == right i) = false := by
      simpa using h1
    rw [h1f]
    simp

theorem compare_self (m : Mem) (n : Nat) : Compare m m n = true := by
  rw [compare_flat]
  have hall : ((List.range (n / 8)).all fun i => m i == m i) = true := by
    rw [List.all_eq_true]
    intro x _
    simp
  rw [hall, Nat.xor_self]
  simp

theorem byte_eq_of_bits (b b2 : Mem) (n i : Nat) (hb : byteOk b) (hb2 : byteOk b2)
    (h : ∀ p, p < n → bitOf b p = bitOf b2 p) (hi : i < n / 8) : b i = b2 i := by
  apply Nat.eq_of_testBit_eq
  intro k
  by_cases hk : k < 8
  · have hp := h (8 * i + k) (by omega)
    unfold bitOf at hp
    have hd : (8 * i + k) / 8 = i := by omega
    have hm : (8 * i + k) % 8 = k := by omega
    rw [hd, hm] at hp
    exact hp
  · rw [testBit_high (hb i) (by omega), testBit_high (hb2 i) (by omega)]

theorem maskByte_eq_of_bits (b b2 : Mem) (n : Nat) (hb : byteOk b) (hb2 : byteOk b2)
    (h : ∀ p, p < n → bitOf b p = bitOf b2 p) :
    (b (n / 8) &&& maskLow (n % 8)) = (b2 (n / 8) &&& maskLow (n % 8)) := by
  apply Nat.eq_of_testBit_eq
  intro k
  rw [Nat.testBit_and, Nat.testBit_and, testBit_maskLow (by omega)]
  by_cases hk : k < n % 8
  · have hp := h (8 * (n / 8) + k) (by omega)
    unfold bitOf at hp
    have hd : (8 * (n / 8) + k) / 8 = n / 8 := by omega
    have hm : (8 * (n / 8) + k) % 8 = k := by omega
    rw [hd, hm] at hp
    rw [hp]
  · simp [hk]

theorem compare_congr (m1 b b2 : Mem) (n : Nat) (hb : byteOk b) (hb2 : byteOk b2)
    (h : ∀ p, p < n → bitOf b p = bitOf b2 p) :
    Compare m1 b n = Compare m1 b2 n := by
  rw [compare_flat, compare_flat]
  have hall : ((List.range (n / 8)).all fun i => m1 i == b i) =
      ((List.range (n / 8)).all fun i => m1 i == b2 i) := by
    rw [Bool.eq_iff_iff, List.all_eq_true, List.all_eq_true]
    constructor <;> intro hx x hmem
    · rw [← byte_eq_of_bits b b2 n x hb hb2 h (List.mem_range.mp hmem)]
      exact hx x hmem
    · rw [byte_eq_of_bits b b2 n x hb hb2 h (List.mem_range.mp hmem)]
      exact hx x hmem
  rw [hall, maskByte_eq_of_bits b b2 n hb hb2 h]

theorem compare_true_of_bits (b b2 : Mem) (n : Nat) (hb : byteOk b) (hb2 : byteOk b2)
    (h : ∀ p, p < n → bitOf b p = bitOf b2 p) : Compare b b2 n = true := by
  rw [← compare_congr b b b2 n hb hb2 h]
  exact compare_self b n

/-- C10.  The one-argument `Equals` compares only the first `a.bit_count`
bits (full bytes byte-wise, then the remaining bits under a mask) and
ignores all further bits of `rhs`: it is reflexive, it returns `true`
whenever the first `a.bit_count` bits agree, it is unchanged when `rhs` is
replaced by any buffer with the same first `a.bit_count` bits, and it can
return `true` for two `BitVector`s of different bit counts (so it is not
symmetric as a relation on bit-vectors of arbitrary length). -/
theorem equals_spec :
    (∀ a : BV, Equals a a = true) ∧
    (∀ a b : BV, byteOk a.bytes → byteOk b.bytes →
      (∀ p, p < a.bit_count → bitOf a.bytes p = bitOf b.bytes p) →
      Equals a b = true) ∧
    (∀ a b b2 : BV, byteOk b.bytes → byteOk b2.bytes →
      (∀ p, p < a.bit_count → bitOf b.bytes p = bitOf b2.bytes p) →
      Equals a b = Equals a b2) ∧
    (Equals ⟨4, fun _ => 255⟩ ⟨8, fun _ => 255⟩ = true ∧ (4 : Nat) ≠ 8) := by
  refine ⟨?_, ?_, ?_, ?_, by norm_num⟩
  · intro a
    exact compare_self a.bytes a.bit_count
  · intro a b ha hb h
    exact compare_true_of_bits a.bytes b.bytes a.bit_count ha hb h
  · intro a b b2 hb hb2 h
    exact compare_congr a.bytes b.bytes b2.bytes a.bit_count hb hb2 h
  · decide

/-- Witness for C10: a 3-bit vector `101` equals a 5-bit vector `01101` whose
first three bits agree (bit counts 3 and 5 differ). -/
theorem equals_spec_witness :
    Equals ⟨3, fun _ => 5⟩ ⟨5, fun _ => 13⟩ = true := by
  apply equals_spec.2.1 ⟨3, fun _ => 5⟩ ⟨5, fun _ => 13⟩
    (fun _ => by norm_num) (fun _ => by norm_num)
  intro p hp
  interval_cases p <;> decide

end Panga
